import Mathlib

/-!
Verification of the Data Sweeper application (growth.py): an interactive
utility that parses CSV/Excel uploads into tables, applies optional cleaning
(duplicate removal, mean imputation of missing numeric values), column
selection, visualization, and export back to CSV/Excel.

The embedding models a pandas DataFrame as a `Table`: a header list plus a
list of rows, each row a list of typed cells (numeric, text, or missing),
following the data model the program manipulates.
-/

/-- A single cell of a table: a numeric value (pandas numeric dtypes,
modelled as a rational), a text value, or a missing value (NaN). -/
inductive Cell where
  | num (q : ℚ)
  | text (s : String)
  | missing
  deriving DecidableEq, Repr

/-- A row of a table. -/
abbrev Row := List Cell

/-- An in-memory table parsed from an uploaded file: ordered named columns
over rows of typed cells (the DataFrame of growth.py). -/
structure Table where
  headers : List String
  rows : List Row
  deriving DecidableEq, Repr

/-- Well-formedness: every row has exactly one cell per column. -/
def Table.WF (t : Table) : Prop :=
  ∀ r ∈ t.rows, r.length = t.headers.length

instance (t : Table) : Decidable t.WF := by
  unfold Table.WF; infer_instance

/-! ## Remove duplicates (`df.drop_duplicates(inplace=True)`, growth.py:107)

pandas `drop_duplicates` with default `keep='first'` scans rows in order and
drops each row equal (across all columns) to a row already seen. -/

/-- Row scan of `drop_duplicates`: drop a row when it already occurs in the
set `seen` of retained earlier rows, otherwise retain it. -/
def keepFirsts (seen : List Row) : List Row → List Row
  | [] => []
  | r :: rs => if r ∈ seen then keepFirsts seen rs else r :: keepFirsts (r :: seen) rs

/-- `df.drop_duplicates(inplace=True)`: delete every row that is a full-row
duplicate of an earlier row, keeping first occurrences in order. -/
def Table.drop_duplicates (t : Table) : Table :=
  { headers := t.headers, rows := keepFirsts [] t.rows }

/-! Spec-side characterization for refinement: a row is kept exactly when it
is not equal to some earlier row, where `earlier` accumulates all rows
preceding the current one (kept or not). -/

/-- Transcription of the specification sentence "deletes rows that are exact
duplicates of an earlier row, keeping the first occurrence": row `r` is kept
iff it differs from every row before it. -/
def firstOccurrences (earlier : List Row) : List Row → List Row
  | [] => []
  | r :: rs =>
      if r ∈ earlier then firstOccurrences (earlier ++ [r]) rs
      else r :: firstOccurrences (earlier ++ [r]) rs

lemma keepFirsts_eq_firstOccurrences (rs : List Row) :
    ∀ seen earlier, (∀ x, x ∈ seen ↔ x ∈ earlier) →
      keepFirsts seen rs = firstOccurrences earlier rs := by
  induction rs with
  | nil => intro seen earlier _; rfl
  | cons r rs ih =>
      intro seen earlier hmem
      by_cases hr : r ∈ seen
      · rw [keepFirsts, if_pos hr, firstOccurrences, if_pos ((hmem r).mp hr)]
        exact ih seen (earlier ++ [r]) fun x => by
          constructor
          · intro hx; exact List.mem_append_left _ ((hmem x).mp hx)
          · intro hx
            rcases List.mem_append.mp hx with hx | hx
            · exact (hmem x).mpr hx
            · rcases List.mem_singleton.mp hx with rfl; exact hr
      · rw [keepFirsts, if_neg hr, firstOccurrences,
          if_neg (fun h => hr ((hmem r).mpr h))]
        refine congrArg (r :: ·) (ih (r :: seen) (earlier ++ [r]) fun x => ?_)
        constructor
        · intro hx
          rcases List.mem_cons.mp hx with rfl | hx
          · exact List.mem_append_right _ (List.mem_singleton_self x)
          · exact List.mem_append_left _ ((hmem x).mp hx)
        · intro hx
          rcases List.mem_append.mp hx with hx | hx
          · exact List.mem_cons_of_mem _ ((hmem x).mpr hx)
          · rcases List.mem_singleton.mp hx with rfl; exact List.mem_cons_self _ _

lemma keepFirsts_sublist (seen : List Row) (rs : List Row) :
    (keepFirsts seen rs).Sublist rs := by
  induction rs generalizing seen with
  | nil => simp [keepFirsts]
  | cons r rs ih =>
      rw [keepFirsts]
      by_cases hr : r ∈ seen
      · rw [if_pos hr]; exact (ih seen).cons r
      · rw [if_neg hr]; exact (ih (r :: seen)).cons₂ r

lemma mem_keepFirsts (seen : List Row) (rs : List Row) (x : Row) :
    x ∈ keepFirsts seen rs ↔ x ∈ rs ∧ x ∉ seen := by
  induction rs generalizing seen with
  | nil => simp [keepFirsts]
  | cons r rs ih =>
      rw [keepFirsts]
      by_cases hr : r ∈ seen
      · rw [if_pos hr, ih]
        constructor
        · rintro ⟨hx, hs⟩; exact ⟨List.mem_cons_of_mem _ hx, hs⟩
        · rintro ⟨hx, hs⟩
          rcases List.mem_cons.mp hx with rfl | hx
          · exact absurd hr hs
          · exact ⟨hx, hs⟩
      · rw [if_neg hr]
        constructor
        · intro hx
          rcases List.mem_cons.mp hx with rfl | hx
          · exact ⟨List.mem_cons_self _ _, hr⟩
          · rcases (ih _).mp hx with ⟨h1, h2⟩
            exact ⟨List.mem_cons_of_mem _ h1,
              fun hs => h2 (List.mem_cons_of_mem _ hs)⟩
        · rintro ⟨hx, hs⟩
          rcases List.mem_cons.mp hx with rfl | hx
          · exact List.mem_cons_self _ _
          · by_cases hxr : x = r
            · subst hxr; exact List.mem_cons_self _ _
            · exact List.mem_cons_of_mem _ ((ih _).mpr ⟨hx, by
                intro h
                rcases List.mem_cons.mp h with h | h
                · exact hxr h
                · exact hs h⟩)

lemma keepFirsts_nodup (seen : List Row) (rs : List Row) :
    (keepFirsts seen rs).Nodup := by
  induction rs generalizing seen with
  | nil => simp [keepFirsts]
  | cons r rs ih =>
      rw [keepFirsts]
      by_cases hr : r ∈ seen
      · rw [if_pos hr]; exact ih seen
      · rw [if_neg hr]
        refine List.nodup_cons.mpr ⟨?_, ih (r :: seen)⟩
        intro hmem
        exact ((mem_keepFirsts _ _ _).mp hmem).2 (List.mem_cons_self _ _)

lemma keepFirsts_nodup_id (rs : List Row) :
    ∀ seen, rs.Nodup → (∀ x ∈ rs, x ∉ seen) → keepFirsts seen rs = rs := by
  induction rs with
  | nil => intro seen _ _; rfl
  | cons r rs ih =>
      intro seen hnd hdisj
      rw [keepFirsts, if_neg (hdisj r (List.mem_cons_self _ _))]
      refine congrArg (r :: ·) (ih (r :: seen) (List.nodup_cons.mp hnd).2 ?_)
      intro x hx hmem
      rcases List.mem_cons.mp hmem with rfl | hmem
      · exact (List.nodup_cons.mp hnd).1 hx
      · exact hdisj x (List.mem_cons_of_mem _ hx) hmem

/-- C2: remove-duplicates deletes exactly the rows equal (across all columns)
to some earlier row — the output rows are the first occurrences, computed by
retaining a row iff it differs from every row before it — so the output is a
subsequence of the input (kept rows in original relative order), every output
row is unique, and the output row count is at most the input row count.
Column headers are untouched. -/
theorem c2_drop_duplicates_first_occurrences (t : Table) :
    t.drop_duplicates.headers = t.headers ∧
    t.drop_duplicates.rows = firstOccurrences [] t.rows ∧
    t.drop_duplicates.rows.Sublist t.rows ∧
    t.drop_duplicates.rows.Nodup ∧
    t.drop_duplicates.rows.length ≤ t.rows.length := by
  refine ⟨rfl, ?_, ?_, ?_, ?_⟩
  · exact keepFirsts_eq_firstOccurrences t.rows [] [] (by simp)
  · exact keepFirsts_sublist [] t.rows
  · exact keepFirsts_nodup [] t.rows
  · exact (keepFirsts_sublist [] t.rows).length_le

/-! ## Fill missing values (growth.py:111-114)

`numeric_cols = df.select_dtypes(include=['number']).columns` selects the
columns of numeric dtype — in this model, the columns every cell of which is
numeric or missing (pandas infers a numeric dtype exactly when no text value
occurs in the column; an all-NaN column reads as float64 and is numeric).
`df[numeric_cols] = df[numeric_cols].fillna(df[numeric_cols].mean())`
replaces each NaN of such a column by the column mean, where `mean()`
skips NaN (and is itself NaN on an all-NaN column, in which case `fillna`
leaves the NaNs in place). -/

/-- The cells of column `j`, top to bottom. -/
def colCells (t : Table) (j : ℕ) : List Cell :=
  t.rows.map (fun r => r.getD j .missing)

/-- Numeric dtype test (`select_dtypes(include=['number'])`): no text cell. -/
def isNumericCol (cells : List Cell) : Bool :=
  cells.all (fun c => match c with | .num _ => true | .missing => true | .text _ => false)

/-- The non-missing numeric values of a column. -/
def nonMissing (cells : List Cell) : List ℚ :=
  cells.filterMap (fun c => match c with | .num q => some q | _ => none)

/-- `mean()` with its default `skipna=True`: arithmetic mean of the
non-missing values, or no value when all entries are missing. -/
def colMean (cells : List Cell) : Option ℚ :=
  if nonMissing cells = [] then none
  else some ((nonMissing cells).sum / (nonMissing cells).length)

/-- The value `fillna` substitutes in a column: the column mean when the
column has numeric dtype, nothing otherwise (non-numeric columns are not in
`numeric_cols` and are left alone). -/
def colFill (cells : List Cell) : Option ℚ :=
  if isNumericCol cells then colMean cells else none

/-- `fillna(v)` on one cell: replace a missing cell by `v` when `v` is a
value; keep every non-missing cell, and keep missing when `v` is NaN. -/
def fillCell (v : Option ℚ) : Cell → Cell
  | .missing => match v with | some m => .num m | none => .missing
  | c => c

/-- Lines 112-113: fill every missing entry of every numeric-dtype column
with that column's mean of non-missing values. -/
def Table.fill_missing (t : Table) : Table :=
  { headers := t.headers,
    rows := t.rows.map (fun r => r.mapIdx (fun j c => fillCell (colFill (colCells t j)) c)) }

lemma fillCell_ne_missing (v : Option ℚ) (c : Cell) (hc : c ≠ .missing) :
    fillCell v c = c := by
  cases c with
  | num q => rfl
  | text s => rfl
  | missing => exact absurd rfl hc

lemma fillCell_none (c : Cell) : fillCell none c = c := by
  cases c <;> rfl

lemma colCells_fill_missing (t : Table) (hWF : t.WF) (j : ℕ)
    (hj : j < t.headers.length) :
    colCells t.fill_missing j = (colCells t j).map (fillCell (colFill (colCells t j))) := by
  unfold colCells Table.fill_missing
  simp only [List.map_map]
  refine List.map_congr_left (fun r hr => ?_)
  have hlen : r.length = t.headers.length := hWF r hr
  have hjr : j < r.length := hlen ▸ hj
  simp only [Function.comp_apply]
  rw [List.getD_eq_getElem _ _ (by simpa using hjr), List.getD_eq_getElem _ _ hjr,
    List.getElem_mapIdx]
  rfl

lemma isNumericCol_map_fillCell (cells : List Cell) (v : Option ℚ)
    (h : isNumericCol cells = true) :
    isNumericCol (cells.map (fillCell v)) = true := by
  simp only [isNumericCol, List.all_eq_true] at h ⊢
  intro c hc
  rcases List.mem_map.mp hc with ⟨c0, hc0, rfl⟩
  have := h c0 hc0
  cases c0 with
  | num q => exact this
  | text s => exact absurd this (by simp)
  | missing => cases v <;> simp [fillCell]

lemma mem_map_fillCell_some_ne_missing (cells : List Cell) (m : ℚ) (c : Cell)
    (hc : c ∈ cells.map (fillCell (some m))) : c ≠ .missing := by
  rcases List.mem_map.mp hc with ⟨c0, _, rfl⟩
  cases c0 <;> simp [fillCell]

lemma colFill_eq_some {cells : List Cell} {m : ℚ} (h : colFill cells = some m) :
    isNumericCol cells = true ∧ colMean cells = some m := by
  unfold colFill at h
  by_cases hn : isNumericCol cells = true
  · rw [if_pos hn] at h; exact ⟨hn, h⟩
  · rw [if_neg hn] at h; cases h

lemma map_fillCell_none (cells : List Cell) : cells.map (fillCell none) = cells := by
  induction cells with
  | nil => rfl
  | cons c cs ih => rw [List.map_cons, fillCell_none, ih]

lemma fillCell_some_eq (m : ℚ) (c : Cell) :
    fillCell (some m) c = if c = .missing then .num m else c := by
  cases c <;> simp [fillCell]

/-- C1: on a well-formed table, for every column: if the column has numeric
dtype and at least one non-missing value, fill-missing replaces exactly its
missing entries with the arithmetic mean of the originally non-missing
entries and leaves no missing value in it; a column that is not of numeric
dtype is unchanged; and a numeric column whose values are all missing is
unchanged (its entries all stay missing). -/
theorem c1_fill_missing_mean (t : Table) (hWF : t.WF) (j : ℕ)
    (hj : j < t.headers.length) :
    (isNumericCol (colCells t j) = true → nonMissing (colCells t j) ≠ [] →
      colCells t.fill_missing j =
        (colCells t j).map (fun c => if c = .missing
          then .num ((nonMissing (colCells t j)).sum / (nonMissing (colCells t j)).length)
          else c) ∧
      Cell.missing ∉ colCells t.fill_missing j) ∧
    (isNumericCol (colCells t j) = false → colCells t.fill_missing j = colCells t j) ∧
    (isNumericCol (colCells t j) = true → nonMissing (colCells t j) = [] →
      colCells t.fill_missing j = colCells t j) := by
  have hcol := colCells_fill_missing t hWF j hj
  refine ⟨?_, ?_, ?_⟩
  · intro hnum hne
    have hfill : colFill (colCells t j) =
        some ((nonMissing (colCells t j)).sum / (nonMissing (colCells t j)).length) := by
      unfold colFill colMean
      rw [if_pos hnum, if_neg hne]
    rw [hfill] at hcol
    constructor
    · rw [hcol]
      exact List.map_congr_left (fun c _ => fillCell_some_eq _ c)
    · intro hmem
      rw [hcol] at hmem
      exact mem_map_fillCell_some_ne_missing _ _ _ hmem rfl
  · intro hnum
    have hfill : colFill (colCells t j) = none := by
      unfold colFill; rw [hnum]; rfl
    rw [hfill, map_fillCell_none] at hcol
    exact hcol
  · intro hnum hall
    have hfill : colFill (colCells t j) = none := by
      unfold colFill colMean
      rw [if_pos hnum, if_pos hall]
    rw [hfill, map_fillCell_none] at hcol
    exact hcol

/-- Concrete three-column table: a numeric column with a gap, a text column,
and an all-missing column. -/
def tSample : Table :=
  { headers := ["a", "b", "c"],
    rows := [[.num 1, .text "x", .missing],
             [.missing, .text "y", .missing],
             [.num 2, .text "z", .missing]] }

/-- Witness for C1 at `tSample`, column 0 (values 1, missing, 2): the gap is
filled with the mean 3/2 and no missing value remains. -/
theorem c1_fill_missing_mean_witness :
    colCells tSample.fill_missing 0 = [.num 1, .num (3/2), .num 2] ∧
    Cell.missing ∉ colCells tSample.fill_missing 0 := by
  have h := (c1_fill_missing_mean tSample (by decide) 0 (by decide)).1
    (by decide) (by decide)
  have hnm : nonMissing (colCells tSample 0) = [1, 2] := rfl
  have hmean : (nonMissing (colCells tSample 0)).sum /
      ((nonMissing (colCells tSample 0)).length : ℚ) = 3 / 2 := by
    rw [hnm]; norm_num
  refine ⟨?_, h.2⟩
  rw [h.1]
  simp only [hmean]
  rfl

lemma fill_missing_rows_getD (t : Table) (i j : ℕ) :
    (t.fill_missing.rows.getD i []).getD j .missing
      = if j < (t.rows.getD i []).length
        then fillCell (colFill (colCells t j)) ((t.rows.getD i []).getD j .missing)
        else .missing := by
  unfold Table.fill_missing
  by_cases hi : i < t.rows.length
  · rw [List.getD_eq_getElem (l := t.rows.map _) _ (by simpa using hi),
      List.getElem_map, List.getD_eq_getElem _ _ hi]
    by_cases hj : j < t.rows[i].length
    · rw [if_pos hj, List.getD_eq_getElem _ _ (by simpa [List.length_mapIdx] using hj),
        List.getElem_mapIdx, List.getD_eq_getElem _ _ hj]
    · rw [if_neg hj, List.getD_eq_default]
      simpa [List.length_mapIdx] using Nat.le_of_not_lt hj
  · have h1 : (t.rows.map
        (fun r => r.mapIdx fun j c => fillCell (colFill (colCells t j)) c)).getD i []
          = ([] : Row) :=
      List.getD_eq_default _ _ (by simpa using Nat.le_of_not_lt hi)
    have h2 : t.rows.getD i [] = ([] : Row) :=
      List.getD_eq_default _ _ (Nat.le_of_not_lt hi)
    rw [h1, h2]
    simp

/-- C9: fill-missing preserves the header list (names and order) and the row
count, it never changes a cell that was not missing, and any cell it does
change was a missing entry of a numeric-dtype column (which is the only kind
of cell it can alter). Cells are addressed by row and column index, with a
missing default out of range. -/
theorem c9_fill_missing_frame (t : Table) :
    t.fill_missing.headers = t.headers ∧
    t.fill_missing.rows.length = t.rows.length ∧
    (∀ i j, (t.rows.getD i []).getD j .missing ≠ .missing →
      (t.fill_missing.rows.getD i []).getD j .missing
        = (t.rows.getD i []).getD j .missing) ∧
    (∀ i j, (t.fill_missing.rows.getD i []).getD j .missing
        ≠ (t.rows.getD i []).getD j .missing →
      (t.rows.getD i []).getD j .missing = .missing ∧
      isNumericCol (colCells t j) = true) := by
  refine ⟨rfl, by simp [Table.fill_missing], ?_, ?_⟩
  · intro i j hne
    rw [fill_missing_rows_getD]
    by_cases hj : j < (t.rows.getD i []).length
    · rw [if_pos hj]
      exact fillCell_ne_missing _ _ hne
    · exact absurd (List.getD_eq_default _ _ (Nat.le_of_not_lt hj)) hne
  · intro i j hne
    rw [fill_missing_rows_getD] at hne
    by_cases hj : j < (t.rows.getD i []).length
    · rw [if_pos hj] at hne
      by_cases hm : (t.rows.getD i []).getD j .missing = .missing
      · refine ⟨hm, ?_⟩
        rw [hm] at hne
        rcases hv : colFill (colCells t j) with _ | m
        · rw [hv] at hne
          exact absurd (fillCell_none Cell.missing) hne
        · exact (colFill_eq_some hv).1
      · exact absurd (fillCell_ne_missing _ _ hm) hne
    · rw [if_neg hj, List.getD_eq_default _ _ (Nat.le_of_not_lt hj)] at hne
      exact absurd rfl hne

/-- Witness for C9 at `tSample`: the non-missing cell (0,0) is unchanged,
and the changed cell (1,0) was a missing entry of a numeric column. -/
theorem c9_fill_missing_frame_witness :
    (tSample.fill_missing.rows.getD 0 []).getD 0 .missing
      = (tSample.rows.getD 0 []).getD 0 .missing ∧
    ((tSample.rows.getD 1 []).getD 0 .missing = .missing ∧
      isNumericCol (colCells tSample 0) = true) :=
  ⟨(c9_fill_missing_frame tSample).2.2.1 0 0 (by decide),
   (c9_fill_missing_frame tSample).2.2.2 1 0 (by decide)⟩

lemma Table.ext' {t₁ t₂ : Table} (hh : t₁.headers = t₂.headers)
    (hr : t₁.rows = t₂.rows) : t₁ = t₂ := by
  cases t₁; cases t₂; cases hh; cases hr; rfl

lemma fill_missing_WF (t : Table) (hWF : t.WF) : t.fill_missing.WF := by
  intro r hr
  rcases List.mem_map.mp hr with ⟨r0, hr0, rfl⟩
  simpa [List.length_mapIdx] using hWF r0 hr0

lemma mapIdx_id_of (f : ℕ → Cell → Cell) (r : Row)
    (h : ∀ (j : ℕ) (hj : j < r.length), f j (r.get ⟨j, hj⟩) = r.get ⟨j, hj⟩) :
    r.mapIdx f = r := by
  apply List.ext_getElem (by simp [List.length_mapIdx])
  intro i h1 h2
  rw [List.getElem_mapIdx]
  exact h i h2

lemma mem_colCells_of_mem_rows (t : Table) (r : Row) (hr : r ∈ t.rows)
    (j : ℕ) (hj : j < r.length) : r.get ⟨j, hj⟩ ∈ colCells t j := by
  unfold colCells
  refine List.mem_map.mpr ⟨r, hr, ?_⟩
  rw [List.getD_eq_getElem _ _ hj]
  rfl

lemma fill_missing_idem (t : Table) (hWF : t.WF) :
    t.fill_missing.fill_missing = t.fill_missing := by
  have hWF' := fill_missing_WF t hWF
  refine Table.ext' rfl ?_
  show t.fill_missing.rows.map _ = t.fill_missing.rows
  rw [List.map_congr_left (g := id) ?_, List.map_id]
  intro r' hr'
  show r'.mapIdx _ = r'
  apply mapIdx_id_of
  intro j hj
  have hjh : j < t.headers.length := by
    have := hWF' r' hr'
    simp only [Table.fill_missing] at this
    omega
  have hcol' := colCells_fill_missing t hWF j hjh
  rcases hv : colFill (colCells t j) with _ | m
  · rw [hv, map_fillCell_none] at hcol'
    rw [hcol', hv, fillCell_none]
  · have hmem : r'.get ⟨j, hj⟩ ∈ colCells t.fill_missing j :=
      mem_colCells_of_mem_rows t.fill_missing r' hr' j hj
    rw [hcol', hv] at hmem
    exact fillCell_ne_missing _ _ (mem_map_fillCell_some_ne_missing _ m _ hmem)

/-- C6: both cleaning operations are idempotent on well-formed tables:
applying remove-duplicates twice equals applying it once, and likewise for
fill-missing-values. -/
theorem c6_cleaning_idempotent (t : Table) (hWF : t.WF) :
    t.drop_duplicates.drop_duplicates = t.drop_duplicates ∧
    t.fill_missing.fill_missing = t.fill_missing := by
  refine ⟨Table.ext' rfl ?_, fill_missing_idem t hWF⟩
  show keepFirsts [] (keepFirsts [] t.rows) = keepFirsts [] t.rows
  exact keepFirsts_nodup_id _ [] (keepFirsts_nodup [] t.rows)
    (fun x _ h => List.not_mem_nil x h)

/-- Witness for C6 at the concrete table `tSample`. -/
theorem c6_cleaning_idempotent_witness :
    tSample.drop_duplicates.drop_duplicates = tSample.drop_duplicates ∧
    tSample.fill_missing.fill_missing = tSample.fill_missing :=
  c6_cleaning_idempotent tSample (by decide)

/-! ## Column selection (growth.py:118-119)

`columns = st.multiselect(..., df.columns, default=df.columns)` returns the
list of selected column names — in the order the user picked them, which need
not be the table's column order — and `df = df[columns]` projects the
DataFrame to exactly those columns, in the order of the given label list. -/

/-- `df[columns]`: project to the columns named in `sel`, in the order `sel`
lists them; a column's data is looked up by name in the original table. -/
def Table.selectColumns (t : Table) (sel : List String) : Table :=
  { headers := sel,
    rows := t.rows.map (fun r => sel.map (fun name => r.getD (t.headers.indexOf name) .missing)) }

/-- Two-column, one-row table used to exhibit the column-order behavior. -/
def tSel : Table := { headers := ["a", "b"], rows := [[.num 1, .num 2]] }

/-- Counterexample to C3 as stated: selecting `["b", "a"]` from a table with
column order `["a", "b"]` yields the columns in the selection order
`["b", "a"]`, not in the table's original column order intersected with the
selection (which would be `["a", "b"]`). -/
theorem c3_selection_order_counterexample :
    (tSel.selectColumns ["b", "a"]).headers
        ≠ tSel.headers.filter (fun h => h ∈ (["b", "a"] : List String)) ∧
    (tSel.selectColumns ["b", "a"]).headers = ["b", "a"] := by
  constructor
  · decide
  · rfl

/-- C3 (amended): column selection yields a table whose columns are exactly
the members of the selection, in the order the selection lists them (not the
original column order); each selected column keeps its original cell data;
the row count is preserved; selecting the full column set in its original
order is a no-op; and selecting the empty set yields zero columns with the
same row count. -/
theorem c3_select_columns (t : Table) (sel : List String) (hWF : t.WF)
    (hnd : t.headers.Nodup) :
    (t.selectColumns sel).headers = sel ∧
    (t.selectColumns sel).rows.length = t.rows.length ∧
    (∀ name ∈ sel, colCells (t.selectColumns sel) (sel.indexOf name)
        = colCells t (t.headers.indexOf name)) ∧
    t.selectColumns t.headers = t ∧
    ((t.selectColumns []).headers = [] ∧
      (t.selectColumns []).rows.length = t.rows.length) := by
  refine ⟨rfl, by simp [Table.selectColumns], ?_, ?_, rfl, by simp [Table.selectColumns]⟩
  · intro name hname
    unfold colCells Table.selectColumns
    simp only [List.map_map]
    refine List.map_congr_left (fun r _ => ?_)
    have hidx : sel.indexOf name < sel.length := List.indexOf_lt_length.mpr hname
    simp only [Function.comp_apply]
    rw [List.getD_eq_getElem _ _ (by simpa using hidx), List.getElem_map,
      List.getElem_indexOf hidx]
  · refine Table.ext' rfl ?_
    show t.rows.map _ = t.rows
    rw [List.map_congr_left (g := id) ?_, List.map_id]
    intro r hr
    have hlen : r.length = t.headers.length := hWF r hr
    apply List.ext_getElem (by simpa using hlen.symm)
    intro k h1 h2
    rw [List.getElem_map, List.indexOf_getElem hnd k (by simpa using h1),
      List.getD_eq_getElem _ _ (by simpa using h2)]
    rfl

/-- Witness for the amended C3 at `tSel` with selection `["b"]`. -/
theorem c3_select_columns_witness :
    (tSel.selectColumns ["b"]).headers = ["b"] ∧
    colCells (tSel.selectColumns ["b"]) ((["b"] : List String).indexOf "b")
      = colCells tSel (tSel.headers.indexOf "b") ∧
    tSel.selectColumns tSel.headers = tSel := by
  have h := c3_select_columns tSel ["b"] (by decide) (by decide)
  exact ⟨h.1, h.2.2.1 "b" (by decide), (c3_select_columns tSel ["b"] (by decide)
    (by decide)).2.2.2.1⟩

/-! ## Export filename (growth.py:80, 146-155)

`file_extension = os.path.splitext(file.name)[-1].lower()` and, on convert,
`file_name = file.name.replace(file_extension, ".csv")` (or `".xlsx"`).
Python `str.replace` substitutes every non-overlapping occurrence of the
pattern anywhere in the string, scanning left to right; `os.path.splitext`
takes the suffix from the last dot, except that a basename consisting only
of leading dots has no extension. Filenames are modelled as `List Char`. -/

/-- `pat` matches `s` at position 0. -/
def isInitSeg : List Char → List Char → Bool
  | [], _ => true
  | _ :: _, [] => false
  | a :: as, b :: bs => a = b && isInitSeg as bs

/-- Fuel-driven scan of Python `str.replace`: each step either replaces an
occurrence of `pat` (consuming `pat.length ≥ 1` characters) or copies one
character, so `s.length` steps always exhaust `s`. -/
def replaceFuel (pat rep : List Char) : ℕ → List Char → List Char
  | 0, s => s
  | _ + 1, [] => []
  | fuel + 1, c :: cs =>
      if pat ≠ [] ∧ isInitSeg pat (c :: cs) = true then
        rep ++ replaceFuel pat rep fuel ((c :: cs).drop pat.length)
      else c :: replaceFuel pat rep fuel cs

/-- Python `s.replace(pat, rep)`: replace every non-overlapping occurrence
of `pat` in `s` by `rep`, left to right. -/
def replaceAll (pat rep s : List Char) : List Char :=
  replaceFuel pat rep s.length s

/-- `os.path.splitext(name)[-1]`: the suffix starting at the last `'.'`,
unless every character before that dot is itself a dot (then the dots are
part of the base name and there is no extension). -/
def splitextExt (s : List Char) : List Char :=
  match ((List.range s.length).filter (fun i => s.getD i ' ' = '.')).getLast? with
  | none => []
  | some i => if (List.range i).all (fun j => s.getD j ' ' = '.') then [] else s.drop i

/-- `file_extension` (growth.py:80): the lowercased extension of the name. -/
def fileExt (name : List Char) : List Char :=
  (splitextExt name).map Char.toLower

/-- The conversion type chosen by the radio widget (growth.py:145). -/
inductive ConvType where
  | csv
  | excel
  deriving DecidableEq, Repr

/-- The replacement extension used on convert (growth.py:150/154). -/
def targetExt : ConvType → List Char
  | .csv => ".csv".data
  | .excel => ".xlsx".data

/-- `file.name.replace(file_extension, ".csv" / ".xlsx")`
(growth.py:150/154): the name of the export artifact. -/
def exportFileName (name : List Char) (conv : ConvType) : List Char :=
  replaceAll (fileExt name) (targetExt conv) name

/-- Counterexample to C4 as stated: converting an upload named `DATA.CSV`
(accepted — the extension check is case-insensitive) to Excel leaves the
name `DATA.CSV` unchanged, because `str.replace` looks for the lowercased
extension `.csv`, which does not occur in `DATA.CSV`; the claim requires
`DATA.xlsx`. -/
theorem c4_export_filename_counterexample :
    exportFileName "DATA.CSV".data .excel = "DATA.CSV".data ∧
    exportFileName "DATA.CSV".data .excel ≠ "DATA.xlsx".data := by
  constructor
  · decide
  · decide

lemma replaceFuel_nil (pat rep : List Char) (fuel : ℕ) :
    replaceFuel pat rep fuel [] = [] := by
  cases fuel <;> rfl

lemma isInitSeg_append (pat rest : List Char) :
    isInitSeg pat (pat ++ rest) = true := by
  induction pat with
  | nil => rfl
  | cons a as ih => simpa [isInitSeg] using ih

lemma replaceFuel_unique_occurrence (pat rep : List Char) (hpat : pat ≠ []) :
    ∀ (base : List Char) (fuel : ℕ), base.length + pat.length ≤ fuel →
      (∀ i < base.length, isInitSeg pat ((base ++ pat).drop i) = false) →
      replaceFuel pat rep fuel (base ++ pat) = base ++ rep := by
  intro base
  induction base with
  | nil =>
      intro fuel hfuel _
      rcases pat with _ | ⟨c, cs⟩
      · exact absurd rfl hpat
      · rcases fuel with _ | fuel
        · simp at hfuel
        · show replaceFuel _ _ (fuel + 1) (c :: cs) = _
          rw [replaceFuel, if_pos ⟨hpat, by simpa using isInitSeg_append (c :: cs) []⟩]
          rw [List.drop_length (l := c :: cs), replaceFuel_nil]
          simp
  | cons b base ih =>
      intro fuel hfuel hocc
      rcases fuel with _ | fuel
      · simp at hfuel
      · have h0 := hocc 0 (by simp)
        show replaceFuel _ _ (fuel + 1) (b :: (base ++ pat)) = _
        rw [replaceFuel, if_neg (by
          rintro ⟨-, hseg⟩
          rw [show (b :: (base ++ pat) : List Char) = ((b :: base) ++ pat).drop 0 by rfl] at hseg
          rw [h0] at hseg
          cases hseg)]
        have := ih fuel (by simpa using Nat.lt_succ_iff.mp (by
          simpa [Nat.add_comm, Nat.add_left_comm] using hfuel))
          (fun i hi => by simpa using hocc (i + 1) (by simpa using Nat.succ_lt_succ hi))
        rw [this]
        rfl

/-- C4 (amended): the export filename is the original name with every
occurrence of the lowercased original extension replaced by `.csv` or
`.xlsx`; in particular, whenever the lowercased extension occurs in the name
only as its final suffix, the artifact is named `<original_basename>.csv`
or `<original_basename>.xlsx` as the claim states. (The claim as stated
fails when the extension is not lowercase in the name — no replacement
happens — or occurs several times — every occurrence is replaced.) -/
theorem c4_export_filename (base name : List Char) (conv : ConvType)
    (hname : name = base ++ fileExt name)
    (hext : fileExt name ≠ [])
    (hocc : ∀ i < base.length, isInitSeg (fileExt name) (name.drop i) = false) :
    exportFileName name conv = base ++ targetExt conv := by
  unfold exportFileName replaceAll
  set e := fileExt name with he
  rw [hname]
  refine replaceFuel_unique_occurrence e (targetExt conv) hext base
    (base ++ e).length (by simp) ?_
  intro i hi
  have h := hocc i hi
  rw [hname] at h
  exact h

/-- Witness for the amended C4: converting `report.csv` to Excel yields
`report.xlsx`. -/
theorem c4_export_filename_witness :
    exportFileName "report.csv".data .excel = "report".data ++ targetExt .excel ∧
    "report".data ++ targetExt .excel = "report.xlsx".data :=
  ⟨c4_export_filename "report".data "report.csv".data .excel (by decide) (by decide)
    (by decide), by decide⟩

/-! ## CSV text model (growth.py:84 `pd.read_csv`, growth.py:149 `df.to_csv`)

The parse and serialization routines are pandas library calls, not code of
this repository. Modelled from the spec: §4.6 prescribes "standard
comma-separated serialization, header row included, no row-index column",
§3 a Table of typed cells (numeric, text, missing), and §9 a tagged-variant
cell value with explicit numeric coercion. The model covers the quote-free
fragment of CSV: newline-separated lines (a header line, then one line per
row), comma-separated fields, an empty field read as missing, a decimal
numeric literal read as a number, any other field read as text. -/

/-- Split a character list at every occurrence of `sep` (the separator is
consumed; `n` separators yield `n + 1` fields). -/
def splitOnChar (sep : Char) : List Char → List (List Char)
  | [] => [[]]
  | c :: cs =>
      if c = sep then [] :: splitOnChar sep cs
      else
        match splitOnChar sep cs with
        | [] => [[c]]
        | f :: rest => (c :: f) :: rest

/-- Interleave `sep` between the fields. -/
def joinWith (sep : Char) : List (List Char) → List Char
  | [] => []
  | [f] => f
  | f :: g :: fs => f ++ sep :: joinWith sep (g :: fs)

lemma splitOnChar_ne_nil (sep : Char) (s : List Char) : splitOnChar sep s ≠ [] := by
  induction s with
  | nil => simp [splitOnChar]
  | cons c cs ih =>
      rw [splitOnChar]
      by_cases h : c = sep
      · simp [h]
      · rw [if_neg h]
        rcases hsp : splitOnChar sep cs with _ | ⟨f, rest⟩ <;> simp

lemma not_mem_of_mem_splitOnChar (sep : Char) (s : List Char) (f : List Char)
    (hf : f ∈ splitOnChar sep s) : sep ∉ f := by
  induction s generalizing f with
  | nil =>
      rw [splitOnChar] at hf
      rcases List.mem_singleton.mp hf with rfl
      exact List.not_mem_nil sep
  | cons c cs ih =>
      rw [splitOnChar] at hf
      by_cases h : c = sep
      · rw [if_pos h] at hf
        rcases List.mem_cons.mp hf with rfl | hf
        · exact List.not_mem_nil sep
        · exact ih f hf
      · rw [if_neg h] at hf
        rcases hsp : splitOnChar sep cs with _ | ⟨g, rest⟩
        · exact absurd hsp (splitOnChar_ne_nil sep cs)
        · rw [hsp] at hf
          rcases List.mem_cons.mp hf with rfl | hf
          · intro hmem
            rcases List.mem_cons.mp hmem with rfl | hmem
            · exact h rfl
            · exact ih g (hsp ▸ List.mem_cons_self g rest) hmem
          · exact ih f (hsp ▸ List.mem_cons_of_mem g hf)

lemma splitOnChar_no_sep (sep : Char) (f : List Char) (hf : sep ∉ f) :
    splitOnChar sep f = [f] := by
  induction f with
  | nil => rfl
  | cons c cs ih =>
      rw [splitOnChar, if_neg (fun h => hf (by rw [← h]; exact List.mem_cons_self c cs)),
        ih (fun h => hf (List.mem_cons_of_mem c h))]

lemma splitOnChar_field_append (sep : Char) (f rest : List Char) (hf : sep ∉ f) :
    splitOnChar sep (f ++ sep :: rest) = f :: splitOnChar sep rest := by
  induction f with
  | nil => simp [splitOnChar]
  | cons c cs ih =>
      rw [List.cons_append, splitOnChar,
        if_neg (fun h => hf (by rw [← h]; exact List.mem_cons_self c cs)),
        ih (fun h => hf (List.mem_cons_of_mem c h))]

lemma splitOnChar_joinWith (sep : Char) :
    ∀ fs : List (List Char), fs ≠ [] → (∀ f ∈ fs, sep ∉ f) →
      splitOnChar sep (joinWith sep fs) = fs
  | [], h, _ => absurd rfl h
  | [f], _, hf => by
      rw [joinWith]
      exact splitOnChar_no_sep sep f (hf f (List.mem_singleton_self f))
  | f :: g :: fs, _, hf => by
      rw [joinWith, splitOnChar_field_append sep f _ (hf f (List.mem_cons_self _ _)),
        splitOnChar_joinWith sep (g :: fs) (by simp)
          (fun x hx => hf x (List.mem_cons_of_mem _ hx))]

lemma mem_of_mem_joinWith (sep : Char) :
    ∀ (fs : List (List Char)) (c : Char), c ∈ joinWith sep fs →
      c = sep ∨ ∃ f ∈ fs, c ∈ f
  | [], c, h => absurd h (List.not_mem_nil c)
  | [f], c, h => by
      rw [joinWith] at h
      exact Or.inr ⟨f, List.mem_singleton_self f, h⟩
  | f :: g :: fs, c, h => by
      rw [joinWith] at h
      rcases List.mem_append.mp h with h | h
      · exact Or.inr ⟨f, List.mem_cons_self _ _, h⟩
      · rcases List.mem_cons.mp h with rfl | h
        · exact Or.inl rfl
        · rcases mem_of_mem_joinWith sep (g :: fs) c h with h | ⟨x, hx, hc⟩
          · exact Or.inl h
          · exact Or.inr ⟨x, List.mem_cons_of_mem _ hx, hc⟩

/-! Decimal digit strings. -/

/-- Read a digit string as a natural number (most significant digit first). -/
def digitsToNat (ds : List Char) : ℕ :=
  ds.foldl (fun n d => 10 * n + (d.toNat - '0'.toNat)) 0

/-- Render a natural number as its decimal digit string. -/
def renderNat (n : ℕ) : List Char :=
  if n = 0 then ['0'] else ((Nat.digits 10 n).map Nat.digitChar).reverse

lemma digitsToNat_go (ds : List Char) (acc : ℕ) :
    ds.foldl (fun n d => 10 * n + (d.toNat - '0'.toNat)) acc
      = acc * 10 ^ ds.length + digitsToNat ds := by
  induction ds generalizing acc with
  | nil => simp [digitsToNat]
  | cons d ds ih =>
      rw [digitsToNat, List.foldl_cons, List.foldl_cons, ih, ih (10 * 0 + (d.toNat - '0'.toNat))]
      simp only [List.length_cons]
      ring

lemma digitsToNat_append (a b : List Char) :
    digitsToNat (a ++ b) = digitsToNat a * 10 ^ b.length + digitsToNat b := by
  rw [digitsToNat, List.foldl_append]
  exact digitsToNat_go b (digitsToNat a)

lemma digitChar_isDigit {d : ℕ} (h : d < 10) : (Nat.digitChar d).isDigit = true := by
  interval_cases d <;> decide

lemma digitChar_val {d : ℕ} (h : d < 10) : (Nat.digitChar d).toNat - '0'.toNat = d := by
  interval_cases d <;> decide

lemma digitsToNat_reverse_map (ds : List ℕ) (h : ∀ d ∈ ds, d < 10) :
    digitsToNat ((ds.map Nat.digitChar).reverse) = Nat.ofDigits 10 ds := by
  induction ds with
  | nil => rfl
  | cons d ds ih =>
      rw [List.map_cons, List.reverse_cons, digitsToNat_append,
        ih (fun x hx => h x (List.mem_cons_of_mem _ hx)), Nat.ofDigits_cons]
      have hv : digitsToNat [Nat.digitChar d] = d := by
        rw [digitsToNat, List.foldl_cons, List.foldl_nil]
        rw [Nat.mul_zero, Nat.zero_add, digitChar_val (h d (List.mem_cons_self _ _))]
      rw [hv]
      simp only [List.length_singleton]
      push_cast
      ring

lemma digitsToNat_renderNat (n : ℕ) : digitsToNat (renderNat n) = n := by
  unfold renderNat
  by_cases h : n = 0
  · subst h; decide
  · rw [if_neg h,
      digitsToNat_reverse_map _ (fun d hd => Nat.digits_lt_base (by norm_num) hd),
      Nat.ofDigits_digits]

lemma renderNat_digits (n : ℕ) : ∀ c ∈ renderNat n, c.isDigit = true := by
  unfold renderNat
  by_cases h : n = 0
  · subst h; intro c hc; rcases List.mem_singleton.mp hc with rfl; decide
  · rw [if_neg h]
    intro c hc
    rcases List.mem_map.mp (List.mem_reverse.mp hc) with ⟨d, hd, rfl⟩
    exact digitChar_isDigit (Nat.digits_lt_base (by norm_num) hd)

lemma renderNat_ne_nil (n : ℕ) : renderNat n ≠ [] := by
  unfold renderNat
  by_cases h : n = 0
  · subst h; simp
  · rw [if_neg h]
    simp [Nat.digits_ne_nil_iff_ne_zero.mpr h]

lemma renderNat_length_le {n k : ℕ} (hk : 1 ≤ k) (h : n < 10 ^ k) :
    (renderNat n).length ≤ k := by
  unfold renderNat
  by_cases h0 : n = 0
  · subst h0; simpa using hk
  · rw [if_neg h0]
    rw [List.length_reverse, List.length_map, Nat.digits_len 10 n (by norm_num) h0]
    have := (Nat.lt_pow_iff_log_lt (by norm_num : 1 < 10) h0).mp h
    omega

/-- Value of a literal split at its decimal point: one all-digit field is an
integer, two are the integer and fractional parts; anything else (several
dots, a non-digit, an empty literal) is not a number. -/
def parseFieldsQ : List (List Char) → Option ℚ
  | [ip] =>
      if ip ≠ [] ∧ ip.all Char.isDigit then some ((digitsToNat ip : ℕ) : ℚ) else none
  | [ip, fp] =>
      if ip ++ fp ≠ [] ∧ ip.all Char.isDigit ∧ fp.all Char.isDigit then
        some (((digitsToNat (ip ++ fp) : ℕ) : ℚ) / 10 ^ fp.length)
      else none
  | _ => none

/-- Numeric-literal fragment without a sign: digit string, optionally with a
decimal point (`"12"`, `"3.50"`, `"0.5"`). -/
def parseUnsigned (cs : List Char) : Option ℚ :=
  parseFieldsQ (splitOnChar '.' cs)

/-- Numeric literal with an optional leading minus sign. -/
def parseNumber (cs : List Char) : Option ℚ :=
  match cs with
  | [] => none
  | c :: rest =>
      if c = '-' then (parseUnsigned rest).map (fun q => -q)
      else parseUnsigned (c :: rest)

lemma parseNumber_cons (c : Char) (rest : List Char) :
    parseNumber (c :: rest)
      = if c = '-' then (parseUnsigned rest).map (fun q => -q)
        else parseUnsigned (c :: rest) := rfl

/-- Left-pad a digit string with zeros to width `k`. -/
def padZeros (k : ℕ) (ds : List Char) : List Char :=
  List.replicate (k - ds.length) '0' ++ ds

/-- Render a rational as a decimal literal. A rational with a terminating
decimal expansion (denominator dividing a power of ten — the only kind a
decimal literal can produce) is written exactly, scaled to `q.den`
fractional digits; any other rational falls back to a `num/den` rendering. -/
def renderQ (q : ℚ) : List Char :=
  if 10 ^ q.den % q.den = 0 then
    (if q.num < 0 then ['-'] else []) ++
      renderNat (q.num.natAbs * (10 ^ q.den / q.den) / 10 ^ q.den) ++
      '.' :: padZeros q.den (renderNat (q.num.natAbs * (10 ^ q.den / q.den) % 10 ^ q.den))
  else
    (if q.num < 0 then ['-'] else []) ++ renderNat q.num.natAbs ++ '/' :: renderNat q.den

lemma digitsToNat_replicate_zero (z : ℕ) :
    digitsToNat (List.replicate z '0') = 0 := by
  induction z with
  | zero => rfl
  | succ z ih =>
      rw [List.replicate_succ, digitsToNat, List.foldl_cons]
      show List.foldl _ 0 _ = 0
      exact ih

lemma digitsToNat_padZeros (k : ℕ) (ds : List Char) :
    digitsToNat (padZeros k ds) = digitsToNat ds := by
  rw [padZeros, digitsToNat_append, digitsToNat_replicate_zero]
  ring

lemma padZeros_length {k : ℕ} {ds : List Char} (h : ds.length ≤ k) :
    (padZeros k ds).length = k := by
  rw [padZeros, List.length_append, List.length_replicate]
  omega

lemma padZeros_digits (k : ℕ) (ds : List Char) (h : ∀ c ∈ ds, c.isDigit = true) :
    ∀ c ∈ padZeros k ds, c.isDigit = true := by
  intro c hc
  rcases List.mem_append.mp hc with hc | hc
  · rcases (List.mem_replicate.mp hc).2 with rfl; decide
  · exact h c hc

lemma dvd_ten_pow_self : ∀ d : ℕ, 0 < d → ∀ L : ℕ, d ∣ 10 ^ L → d ∣ 10 ^ d := by
  intro d
  induction d using Nat.strong_induction_on with
  | _ d ih =>
      intro hd L h
      rcases Nat.lt_or_ge d 2 with h1 | h1
      · interval_cases d
        · simp
      · by_cases h2 : 2 ∣ d
        · obtain ⟨d', rfl⟩ := h2
          have hd' : 0 < d' := by omega
          have ih' := ih d' (by omega) hd' L ((dvd_mul_left d' 2).trans h)
          calc 2 * d' ∣ 2 * 10 ^ d' := mul_dvd_mul_left 2 ih'
            _ ∣ 10 ^ (d' + 1) := ⟨5, by rw [pow_succ]; ring⟩
            _ ∣ 10 ^ (2 * d') := pow_dvd_pow 10 (by omega)
        · by_cases h5 : 5 ∣ d
          · obtain ⟨d', rfl⟩ := h5
            have hd' : 0 < d' := by omega
            have ih' := ih d' (by omega) hd' L ((dvd_mul_left d' 5).trans h)
            calc 5 * d' ∣ 5 * 10 ^ d' := mul_dvd_mul_left 5 ih'
              _ ∣ 10 ^ (d' + 1) := ⟨2, by rw [pow_succ]; ring⟩
              _ ∣ 10 ^ (5 * d') := pow_dvd_pow 10 (by omega)
          · have c2 : Nat.Coprime d 2 :=
              ((Nat.Prime.coprime_iff_not_dvd Nat.prime_two).mpr h2).symm
            have c5 : Nat.Coprime d 5 :=
              ((Nat.Prime.coprime_iff_not_dvd Nat.prime_five).mpr h5).symm
            have hcop : Nat.Coprime d 10 := by
              have h10 : (10 : ℕ) = 2 * 5 := rfl
              rw [h10]
              exact Nat.Coprime.mul_right c2 c5
            have hone : d = 1 := Nat.Coprime.eq_one_of_dvd (hcop.pow_right L) h
            omega

lemma not_dot_of_digit {c : Char} (h : c.isDigit = true) : c ≠ '.' := by
  intro hc; subst hc; exact absurd h (by decide)

lemma parseUnsigned_scaled (n d : ℕ) (hd : 0 < d) (hdvd : d ∣ 10 ^ d) :
    parseUnsigned (renderNat (n * (10 ^ d / d) / 10 ^ d) ++
      '.' :: padZeros d (renderNat (n * (10 ^ d / d) % 10 ^ d))) = some ((n : ℚ) / d) := by
  set m := n * (10 ^ d / d) with hm
  set ip := renderNat (m / 10 ^ d) with hip
  set fp := padZeros d (renderNat (m % 10 ^ d)) with hfp
  have hip_dig : ∀ c ∈ ip, c.isDigit = true := renderNat_digits _
  have hfp_dig : ∀ c ∈ fp, c.isDigit = true :=
    padZeros_digits _ _ (renderNat_digits _)
  have hipne : ip ≠ [] := renderNat_ne_nil _
  have hnodot_ip : ('.' : Char) ∉ ip := fun h => not_dot_of_digit (hip_dig '.' h) rfl
  have hnodot_fp : ('.' : Char) ∉ fp := fun h => not_dot_of_digit (hfp_dig '.' h) rfl
  have hlen : fp.length = d :=
    padZeros_length (renderNat_length_le hd (Nat.mod_lt _ (pow_pos (by norm_num) d)))
  have hsplit : splitOnChar '.' (ip ++ '.' :: fp) = [ip, fp] := by
    rw [splitOnChar_field_append '.' ip _ hnodot_ip, splitOnChar_no_sep '.' fp hnodot_fp]
  rw [parseUnsigned, hsplit]
  have hcond : ip ++ fp ≠ [] ∧ ip.all Char.isDigit ∧ fp.all Char.isDigit := by
    refine ⟨fun h => hipne (List.append_eq_nil.mp h).1, ?_, ?_⟩
    · exact List.all_eq_true.mpr hip_dig
    · exact List.all_eq_true.mpr hfp_dig
  rw [parseFieldsQ, if_pos hcond]
  have hval : digitsToNat (ip ++ fp) = m := by
    rw [digitsToNat_append, hlen, hip, hfp, digitsToNat_padZeros,
      digitsToNat_renderNat, digitsToNat_renderNat]
    rw [Nat.mul_comm (m / 10 ^ d) (10 ^ d)]
    exact Nat.div_add_mod m (10 ^ d)
  rw [hval, hlen]
  congr 1
  have hc : (10 ^ d / d) * d = 10 ^ d := Nat.div_mul_cancel hdvd
  have hc0 : (10 ^ d / d : ℕ) ≠ 0 := by
    intro h0
    rw [h0, zero_mul] at hc
    exact pow_ne_zero d (by norm_num : (10 : ℕ) ≠ 0) hc.symm
  have hten : ((10 : ℚ) ^ d) = (((10 ^ d / d) * d : ℕ) : ℚ) := by
    rw [hc]; push_cast; ring
  rw [hten, hm]
  push_cast
  rw [mul_comm ((10 ^ d / d : ℕ) : ℚ) ((d : ℕ) : ℚ)]
  rw [mul_div_mul_right _ _ (by exact_mod_cast hc0)]

lemma parseNumber_renderQ (q : ℚ) (hdvd : q.den ∣ 10 ^ q.den) :
    parseNumber (renderQ q) = some q := by
  have hd : 0 < q.den := q.pos
  have hmod : 10 ^ q.den % q.den = 0 := Nat.mod_eq_zero_of_dvd hdvd
  have hcore := parseUnsigned_scaled q.num.natAbs q.den hd hdvd
  unfold renderQ
  rw [if_pos hmod]
  by_cases hneg : q.num < 0
  · rw [if_pos hneg, List.singleton_append, List.cons_append, parseNumber_cons,
      if_pos rfl, hcore]
    have habs : ((q.num.natAbs : ℕ) : ℚ) = -(q.num : ℚ) := by
      rw [Int.cast_natAbs, abs_of_nonpos (le_of_lt hneg)]
      push_cast
      ring
    rw [Option.map_some', habs, neg_div, neg_neg, Rat.num_div_den]
  · rw [if_neg hneg, List.nil_append]
    rcases hipeq : renderNat (q.num.natAbs * (10 ^ q.den / q.den) / 10 ^ q.den)
        with _ | ⟨c0, ip'⟩
    · exact absurd hipeq (renderNat_ne_nil _)
    · have hc0dig : c0.isDigit = true :=
        renderNat_digits (q.num.natAbs * (10 ^ q.den / q.den) / 10 ^ q.den) c0
          (by rw [hipeq]; exact List.mem_cons_self _ _)
      have hc0ne : c0 ≠ '-' := by
        intro h; subst h; exact absurd hc0dig (by decide)
      rw [List.cons_append, parseNumber_cons, if_neg hc0ne, ← List.cons_append,
        ← hipeq, hcore]
      have habs : ((q.num.natAbs : ℕ) : ℚ) = (q.num : ℚ) := by
        rw [Int.cast_natAbs, abs_of_nonneg (Int.not_lt.mp hneg)]
      rw [habs, Rat.num_div_den]

lemma parseUnsigned_den_dvd {cs : List Char} {q : ℚ}
    (h : parseUnsigned cs = some q) : q.den ∣ 10 ^ q.den := by
  rw [parseUnsigned] at h
  rcases hfs : splitOnChar '.' cs with _ | ⟨ip, _ | ⟨fp, _ | _⟩⟩ <;> rw [hfs] at h
  · cases h
  · rw [parseFieldsQ] at h
    by_cases hc : ip ≠ [] ∧ ip.all Char.isDigit
    · rw [if_pos hc] at h
      have hq : q = ((digitsToNat ip : ℕ) : ℚ) := (Option.some.injEq _ _ ▸ h).symm
      rw [hq, Rat.den_natCast]
      exact one_dvd _
    · rw [if_neg hc] at h; cases h
  · rw [parseFieldsQ] at h
    by_cases hc : ip ++ fp ≠ [] ∧ ip.all Char.isDigit ∧ fp.all Char.isDigit
    · rw [if_pos hc] at h
      have hq : q = ((digitsToNat (ip ++ fp) : ℕ) : ℚ) / 10 ^ fp.length :=
        (Option.some.injEq _ _ ▸ h).symm
      have hdvdL : q.den ∣ 10 ^ fp.length := by
        have h1 := Rat.den_dvd ((digitsToNat (ip ++ fp) : ℕ) : ℤ) ((10 : ℤ) ^ fp.length)
        rw [Rat.divInt_eq_div] at h1
        have h2 : (((digitsToNat (ip ++ fp) : ℕ) : ℤ) : ℚ) / (((10 : ℤ) ^ fp.length : ℤ) : ℚ)
            = q := by
          rw [hq]; push_cast; ring
        rw [h2] at h1
        exact_mod_cast h1
      exact dvd_ten_pow_self q.den q.pos fp.length hdvdL
    · rw [if_neg hc] at h; cases h
  · cases h

lemma parseNumber_den_dvd {cs : List Char} {q : ℚ}
    (h : parseNumber cs = some q) : q.den ∣ 10 ^ q.den := by
  rcases cs with _ | ⟨c, rest⟩
  · cases h
  · rw [parseNumber_cons] at h
    by_cases hc : c = '-'
    · rw [if_pos hc] at h
      rcases hopt : parseUnsigned rest with _ | q0 <;> rw [hopt] at h
      · cases h
      · rw [Option.map_some'] at h
        have hq : q = -q0 := (Option.some.injEq _ _ ▸ h).symm
        have := parseUnsigned_den_dvd hopt
        rw [hq, Rat.neg_den]
        exact this
    · rw [if_neg hc] at h
      exact parseUnsigned_den_dvd h

lemma mem_renderQ (q : ℚ) (c : Char) (hc : c ∈ renderQ q) :
    c.isDigit = true ∨ c = '-' ∨ c = '.' ∨ c = '/' := by
  unfold renderQ at hc
  have hsign : ∀ x ∈ (if q.num < 0 then ['-'] else ([] : List Char)), x = '-' := by
    intro x hx
    by_cases hn : q.num < 0
    · rw [if_pos hn] at hx; exact List.mem_singleton.mp hx
    · rw [if_neg hn] at hx; exact absurd hx (List.not_mem_nil x)
  by_cases hmod : 10 ^ q.den % q.den = 0
  · rw [if_pos hmod] at hc
    rcases List.mem_append.mp hc with hc | hc
    · rcases List.mem_append.mp hc with hc | hc
      · exact Or.inr (Or.inl (hsign c hc))
      · exact Or.inl (renderNat_digits _ c hc)
    · rcases List.mem_cons.mp hc with rfl | hc
      · exact Or.inr (Or.inr (Or.inl rfl))
      · exact Or.inl (padZeros_digits _ _ (renderNat_digits _) c hc)
  · rw [if_neg hmod] at hc
    rcases List.mem_append.mp hc with hc | hc
    · rcases List.mem_append.mp hc with hc | hc
      · exact Or.inr (Or.inl (hsign c hc))
      · exact Or.inl (renderNat_digits _ c hc)
    · rcases List.mem_cons.mp hc with rfl | hc
      · exact Or.inr (Or.inr (Or.inr rfl))
      · exact Or.inl (renderNat_digits _ c hc)

lemma renderQ_ne_nil (q : ℚ) : renderQ q ≠ [] := by
  unfold renderQ
  by_cases hmod : 10 ^ q.den % q.den = 0
  · rw [if_pos hmod]; simp
  · rw [if_neg hmod]; simp

/-- Typed value of a parsed numeric attempt: a parsed number is a numeric
cell, anything else is text. -/
def cellOfNumber : Option ℚ → List Char → Cell
  | some q, _ => .num q
  | none, cs => .text (String.mk cs)

/-- Modelled from the spec: one CSV field as read by `pd.read_csv`
(growth.py:84) into the spec's tagged cell — empty field missing, decimal
numeric literal a number, anything else text. -/
def parseField (cs : List Char) : Cell :=
  if cs = [] then .missing else cellOfNumber (parseNumber cs) cs

/-- Modelled from the spec: one cell as written by `df.to_csv`
(growth.py:149) — missing as an empty field, a number as its decimal
literal, text verbatim. -/
def renderField : Cell → List Char
  | .missing => []
  | .num q => renderQ q
  | .text s => s.data

/-- Parse split CSV lines: the first line carries the column names, each
further line one row; the line grid must be rectangular. -/
def parseCSVLines : List (List Char) → Option Table
  | [] => none
  | headerLine :: dataLines =>
      if (dataLines.map (splitOnChar ',')).all
          (fun fs => fs.length = (splitOnChar ',' headerLine).length) then
        some { headers := (splitOnChar ',' headerLine).map String.mk,
               rows := (dataLines.map (splitOnChar ',')).map (List.map parseField) }
      else none

/-- Modelled from the spec: `pd.read_csv` (growth.py:84) on the quote-free
CSV fragment — newline-separated lines, comma-separated fields, first line
the header. -/
def parseCSV (content : List Char) : Option Table :=
  parseCSVLines (splitOnChar '\n' content)

/-- One serialized data row. -/
def renderRow (r : Row) : List Char :=
  joinWith ',' (r.map renderField)

/-- Modelled from the spec: `df.to_csv(buffer, index=False)` (growth.py:149)
— a header line followed by one line per row, no row-index column. -/
def serializeCSV (t : Table) : List Char :=
  joinWith '\n' (joinWith ',' (t.headers.map String.data) :: t.rows.map renderRow)

lemma parseField_roundtrip (cs : List Char) :
    parseField (renderField (parseField cs)) = parseField cs := by
  unfold parseField
  by_cases hnil : cs = []
  · rw [if_pos hnil]
    rfl
  · rw [if_neg hnil]
    rcases hnum : parseNumber cs with _ | q
    · show parseField (renderField (.text (String.mk cs))) = Cell.text (String.mk cs)
      have hr : renderField (.text (String.mk cs)) = cs := rfl
      rw [hr, parseField, if_neg hnil, hnum]
      rfl
    · show parseField (renderField (.num q)) = Cell.num q
      have hr : renderField (.num q) = renderQ q := rfl
      rw [hr, parseField, if_neg (renderQ_ne_nil q),
        parseNumber_renderQ q (parseNumber_den_dvd hnum)]
      rfl

lemma renderField_no_sep (cs : List Char) (h1 : (',' : Char) ∉ cs)
    (h2 : ('\n' : Char) ∉ cs) :
    (',' : Char) ∉ renderField (parseField cs) ∧
    ('\n' : Char) ∉ renderField (parseField cs) := by
  unfold parseField
  by_cases hnil : cs = []
  · rw [if_pos hnil]
    exact ⟨List.not_mem_nil _, List.not_mem_nil _⟩
  · rw [if_neg hnil]
    rcases hnum : parseNumber cs with _ | q
    · show (',' : Char) ∉ renderField (.text (String.mk cs)) ∧ _
      have hr : renderField (.text (String.mk cs)) = cs := rfl
      rw [hr]
      exact ⟨h1, h2⟩
    · show (',' : Char) ∉ renderField (.num q) ∧ _
      have hr : renderField (.num q) = renderQ q := rfl
      rw [hr]
      constructor
      · intro hmem
        rcases mem_renderQ q ',' hmem with h | h | h | h <;> revert h <;> decide
      · intro hmem
        rcases mem_renderQ q '\n' hmem with h | h | h | h <;> revert h <;> decide

lemma row_fields_props (fs : List (List Char))
    (hcomma : ∀ f ∈ fs, (',' : Char) ∉ f) (hnl : ∀ f ∈ fs, ('\n' : Char) ∉ f) :
    (∀ g ∈ (fs.map parseField).map renderField, (',' : Char) ∉ g) ∧
    (∀ g ∈ (fs.map parseField).map renderField, ('\n' : Char) ∉ g) := by
  constructor
  · intro g hg
    rcases List.mem_map.mp hg with ⟨cell, hcell, rfl⟩
    rcases List.mem_map.mp hcell with ⟨f, hf, rfl⟩
    exact (renderField_no_sep f (hcomma f hf) (hnl f hf)).1
  · intro g hg
    rcases List.mem_map.mp hg with ⟨cell, hcell, rfl⟩
    rcases List.mem_map.mp hcell with ⟨f, hf, rfl⟩
    exact (renderField_no_sep f (hcomma f hf) (hnl f hf)).2

lemma row_roundtrip (fs : List (List Char)) (hfs : fs ≠ [])
    (hcomma : ∀ f ∈ fs, (',' : Char) ∉ f) (hnl : ∀ f ∈ fs, ('\n' : Char) ∉ f) :
    splitOnChar ',' (renderRow (fs.map parseField))
        = (fs.map parseField).map renderField ∧
    (('\n' : Char) ∉ renderRow (fs.map parseField)) ∧
    ((fs.map parseField).map renderField).map parseField = fs.map parseField ∧
    ((fs.map parseField).map renderField).length = fs.length := by
  obtain ⟨hc, hn⟩ := row_fields_props fs hcomma hnl
  refine ⟨?_, ?_, ?_, by simp⟩
  · rw [renderRow, List.map_map]
    rw [splitOnChar_joinWith ',' _ (by simpa using hfs) (by simpa [List.map_map] using hc)]
  · intro hmem
    rw [renderRow] at hmem
    rcases mem_of_mem_joinWith ',' _ '\n' hmem with h | ⟨g, hg, hcg⟩
    · cases h
    · exact hn g (by simpa [List.map_map] using hg) hcg
  · rw [List.map_map, List.map_map]
    refine List.map_congr_left (fun f hf => ?_)
    exact parseField_roundtrip f

lemma header_line_props (fields : List (List Char)) (hne : fields ≠ [])
    (hcomma : ∀ f ∈ fields, (',' : Char) ∉ f)
    (hnl : ∀ f ∈ fields, ('\n' : Char) ∉ f) :
    splitOnChar ',' (joinWith ',' fields) = fields ∧
    ('\n' : Char) ∉ joinWith ',' fields := by
  refine ⟨splitOnChar_joinWith ',' fields hne hcomma, ?_⟩
  intro hmem
  rcases mem_of_mem_joinWith ',' fields '\n' hmem with h | ⟨g, hg, hcg⟩
  · cases h
  · exact hnl g hg hcg

lemma mem_of_mem_splitOnChar (sep : Char) (s : List Char) (f : List Char)
    (c : Char) (hf : f ∈ splitOnChar sep s) (hc : c ∈ f) : c ∈ s := by
  induction s generalizing f with
  | nil =>
      rw [splitOnChar] at hf
      rcases List.mem_singleton.mp hf with rfl
      exact absurd hc (List.not_mem_nil c)
  | cons a cs ih =>
      rw [splitOnChar] at hf
      by_cases h : a = sep
      · rw [if_pos h] at hf
        rcases List.mem_cons.mp hf with rfl | hf
        · exact absurd hc (List.not_mem_nil c)
        · exact List.mem_cons_of_mem a (ih f hf hc)
      · rw [if_neg h] at hf
        rcases hsp : splitOnChar sep cs with _ | ⟨g, rest⟩
        · exact absurd hsp (splitOnChar_ne_nil sep cs)
        · rw [hsp] at hf
          rcases List.mem_cons.mp hf with rfl | hf
          · rcases List.mem_cons.mp hc with rfl | hc
            · exact List.mem_cons_self c cs
            · exact List.mem_cons_of_mem a
                (ih g (hsp ▸ List.mem_cons_self g rest) hc)
          · exact List.mem_cons_of_mem a (ih f (hsp ▸ List.mem_cons_of_mem g hf) hc)

lemma map_data_mk (l : List (List Char)) : (l.map String.mk).map String.data = l := by
  induction l with
  | nil => rfl
  | cons f fs ih => rw [List.map_cons, List.map_cons, ih]

lemma parseCSV_roundtrip {content : List Char} {t : Table}
    (h : parseCSV content = some t) : parseCSV (serializeCSV t) = some t := by
  rw [parseCSV] at h
  rcases hls : splitOnChar '\n' content with _ | ⟨headerLine, dataLines⟩
  · exact absurd hls (splitOnChar_ne_nil _ _)
  rw [hls, parseCSVLines] at h
  by_cases hrect : ((dataLines.map (splitOnChar ',')).all
      (fun fs => fs.length = (splitOnChar ',' headerLine).length)) = true
  swap
  · rw [if_neg hrect] at h; cases h
  rw [if_pos hrect] at h
  have ht : t = { headers := (splitOnChar ',' headerLine).map String.mk,
                  rows := (dataLines.map (splitOnChar ',')).map (List.map parseField) } :=
    (Option.some.injEq _ _ ▸ h).symm
  subst ht
  have hHnl : ('\n' : Char) ∉ headerLine :=
    not_mem_of_mem_splitOnChar '\n' content headerLine
      (hls ▸ List.mem_cons_self headerLine dataLines)
  have hHFcomma : ∀ f ∈ splitOnChar ',' headerLine, (',' : Char) ∉ f :=
    not_mem_of_mem_splitOnChar ',' headerLine
  have hHFnl : ∀ f ∈ splitOnChar ',' headerLine, ('\n' : Char) ∉ f :=
    fun f hf hm => hHnl (mem_of_mem_splitOnChar ',' headerLine f '\n' hf hm)
  obtain ⟨hHsplit, hHnl2⟩ := header_line_props (splitOnChar ',' headerLine)
    (splitOnChar_ne_nil ',' headerLine) hHFcomma hHFnl
  have hlineprops : ∀ line ∈ dataLines,
      (splitOnChar ',' line ≠ [] ∧
       (∀ f ∈ splitOnChar ',' line, (',' : Char) ∉ f) ∧
       (∀ f ∈ splitOnChar ',' line, ('\n' : Char) ∉ f)) := by
    intro line hl
    have hnl : ('\n' : Char) ∉ line :=
      not_mem_of_mem_splitOnChar '\n' content line
        (hls ▸ List.mem_cons_of_mem headerLine hl)
    exact ⟨splitOnChar_ne_nil ',' line, not_mem_of_mem_splitOnChar ',' line,
      fun f hf hm => hnl (mem_of_mem_splitOnChar ',' line f '\n' hf hm)⟩
  rw [parseCSV, serializeCSV]
  show parseCSVLines (splitOnChar '\n' (joinWith '\n'
    (joinWith ',' (((splitOnChar ',' headerLine).map String.mk).map String.data) ::
      ((dataLines.map (splitOnChar ',')).map (List.map parseField)).map renderRow))) = _
  rw [map_data_mk]
  have hsplitlines : splitOnChar '\n' (joinWith '\n'
      (joinWith ',' (splitOnChar ',' headerLine) ::
        ((dataLines.map (splitOnChar ',')).map (List.map parseField)).map renderRow))
      = joinWith ',' (splitOnChar ',' headerLine) ::
        ((dataLines.map (splitOnChar ',')).map (List.map parseField)).map renderRow := by
    refine splitOnChar_joinWith '\n' _ (by simp) ?_
    intro L hL
    rcases List.mem_cons.mp hL with rfl | hL
    · exact hHnl2
    · rcases List.mem_map.mp hL with ⟨row, hrow, rfl⟩
      rcases List.mem_map.mp hrow with ⟨fs, hfs, rfl⟩
      rcases List.mem_map.mp hfs with ⟨line, hline, rfl⟩
      obtain ⟨hne, hcm, hnm⟩ := hlineprops line hline
      exact (row_roundtrip (splitOnChar ',' line) hne hcm hnm).2.1
  rw [hsplitlines, parseCSVLines]
  have hlen_hdr : (splitOnChar ',' (joinWith ',' (splitOnChar ',' headerLine))).length
      = (splitOnChar ',' headerLine).length := by rw [hHsplit]
  have hcond : ((((dataLines.map (splitOnChar ',')).map (List.map parseField)).map
        renderRow).map (splitOnChar ',')).all
      (fun fs => fs.length
        = (splitOnChar ',' (joinWith ',' (splitOnChar ',' headerLine))).length) = true := by
    refine List.all_eq_true.mpr ?_
    intro x hx
    rcases List.mem_map.mp hx with ⟨L, hL, rfl⟩
    rcases List.mem_map.mp hL with ⟨row, hrow, rfl⟩
    rcases List.mem_map.mp hrow with ⟨fs, hfs, rfl⟩
    rcases List.mem_map.mp hfs with ⟨line, hline, rfl⟩
    obtain ⟨hne, hcm, hnm⟩ := hlineprops line hline
    obtain ⟨hsp, _, _, hlen⟩ := row_roundtrip (splitOnChar ',' line) hne hcm hnm
    have horig := List.all_eq_true.mp hrect (splitOnChar ',' line)
      (List.mem_map_of_mem (splitOnChar ',') hline)
    simp only [decide_eq_true_eq] at horig
    rw [hsp, hlen_hdr]
    simp only [decide_eq_true_eq]
    rw [hlen, horig]
  rw [if_pos hcond]
  rw [Option.some.injEq]
  refine Table.ext' ?_ ?_
  · show (splitOnChar ',' (joinWith ',' (splitOnChar ',' headerLine))).map String.mk = _
    rw [hHsplit]
  · show ((((dataLines.map (splitOnChar ',')).map (List.map parseField)).map
        renderRow).map (splitOnChar ',')).map (List.map parseField)
        = (dataLines.map (splitOnChar ',')).map (List.map parseField)
    simp only [List.map_map]
    refine List.map_congr_left ?_
    intro line hline
    obtain ⟨hne, hcm, hnm⟩ := hlineprops line hline
    obtain ⟨hsp, _, hrt, _⟩ := row_roundtrip (splitOnChar ',' line) hne hcm hnm
    show (List.map parseField) (splitOnChar ','
      (renderRow ((List.map parseField) (splitOnChar ',' line))))
        = (List.map parseField) (splitOnChar ',' line)
    rw [hsp, hrt]

/-! ## Excel model (growth.py:86 `pd.read_excel`, growth.py:153 `df.to_excel`)

Modelled from the spec: §4.6 "single-sheet workbook serialization, header
row included, no row-index column". A workbook sheet stores typed cells
(xlsx cells carry their type), modelled as a grid of tagged values; the
first row carries the column labels. -/

/-- A typed cell of a worksheet. -/
inductive XCell where
  | xnum (q : ℚ)
  | xstr (s : String)
  | xempty
  deriving DecidableEq, Repr

/-- Write one table cell into a worksheet cell. -/
def cellToX : Cell → XCell
  | .num q => .xnum q
  | .text s => .xstr s
  | .missing => .xempty

/-- Read one worksheet cell into a table cell. -/
def xToCell : XCell → Cell
  | .xnum q => .num q
  | .xstr s => .text s
  | .xempty => .missing

/-- A column label read from a header-row cell. -/
def xHeaderName : XCell → String
  | .xstr s => s
  | .xnum q => String.mk (renderQ q)
  | .xempty => ""

/-- Modelled from the spec: `pd.read_excel` (growth.py:86) — first sheet
row as column labels, remaining rows as data; the grid must be
rectangular. -/
def parseXlsx : List (List XCell) → Option Table
  | [] => none
  | headerRow :: dataRows =>
      if dataRows.all (fun r => r.length = headerRow.length) then
        some { headers := headerRow.map xHeaderName,
               rows := dataRows.map (List.map xToCell) }
      else none

/-- Modelled from the spec: `df.to_excel(buffer, index=False)`
(growth.py:153) — header row of string cells, one sheet row per table
row, no index column. -/
def serializeXlsx (t : Table) : List (List XCell) :=
  (t.headers.map XCell.xstr) :: t.rows.map (List.map cellToX)

lemma xToCell_cellToX (x : XCell) : cellToX (xToCell x) = x := by
  cases x <;> rfl

lemma parseXlsx_roundtrip {g : List (List XCell)} {t : Table}
    (h : parseXlsx g = some t) : parseXlsx (serializeXlsx t) = some t := by
  rcases g with _ | ⟨headerRow, dataRows⟩
  · cases h
  rw [parseXlsx] at h
  by_cases hrect : (dataRows.all (fun r => r.length = headerRow.length)) = true
  swap
  · rw [if_neg hrect] at h; cases h
  rw [if_pos hrect] at h
  have ht : t = { headers := headerRow.map xHeaderName,
                  rows := dataRows.map (List.map xToCell) } :=
    (Option.some.injEq _ _ ▸ h).symm
  subst ht
  rw [serializeXlsx, parseXlsx]
  have hcond : ((dataRows.map (List.map xToCell)).map (List.map cellToX)).all
      (fun r => r.length
        = ((headerRow.map xHeaderName).map XCell.xstr).length) = true := by
    refine List.all_eq_true.mpr ?_
    intro r hr
    rcases List.mem_map.mp hr with ⟨r0, hr0, rfl⟩
    rcases List.mem_map.mp hr0 with ⟨r1, hr1, rfl⟩
    have := List.all_eq_true.mp hrect r1 hr1
    simp only [decide_eq_true_eq] at this ⊢
    simpa using this
  rw [if_pos hcond, Option.some.injEq]
  refine Table.ext' ?_ ?_
  · show ((headerRow.map xHeaderName).map XCell.xstr).map xHeaderName
      = headerRow.map xHeaderName
    simp only [List.map_map]
    exact List.map_congr_left (fun x _ => rfl)
  · show ((dataRows.map (List.map xToCell)).map (List.map cellToX)).map (List.map xToCell)
      = dataRows.map (List.map xToCell)
    simp only [List.map_map]
    refine List.map_congr_left (fun r _ => ?_)
    show List.map xToCell (List.map cellToX (List.map xToCell r))
      = List.map xToCell r
    simp only [List.map_map]
    refine List.map_congr_left (fun x _ => ?_)
    show xToCell (cellToX (xToCell x)) = xToCell x
    rw [xToCell_cellToX]

/-- C5: round-trip through conversion preserves the Table — for any input
that parses (CSV or Excel), exporting the parsed Table in the same format
and parsing the exported bytes again yields an equal Table (cell values and
column headers preserved). -/
theorem c5_conversion_roundtrip :
    (∀ (content : List Char) (t : Table), parseCSV content = some t →
        parseCSV (serializeCSV t) = some t) ∧
    (∀ (g : List (List XCell)) (t : Table), parseXlsx g = some t →
        parseXlsx (serializeXlsx t) = some t) :=
  ⟨fun _ _ h => parseCSV_roundtrip h, fun _ _ h => parseXlsx_roundtrip h⟩

/-- Table parsed from the CSV text `"a,b\n1,\nx,y"`. -/
def tCsvSample : Table :=
  { headers := ["a", "b"], rows := [[.num 1, .missing], [.text "x", .text "y"]] }

/-- Table parsed from a two-column, one-row worksheet. -/
def tXlsxSample : Table :=
  { headers := ["h1", "h2"], rows := [[.num 2, .missing]] }

/-- Witness for C5: concrete CSV text and worksheet grid round-trip. -/
theorem c5_conversion_roundtrip_witness :
    parseCSV (serializeCSV tCsvSample) = some tCsvSample ∧
    parseXlsx (serializeXlsx tXlsxSample) = some tXlsxSample :=
  ⟨c5_conversion_roundtrip.1 "a,b\n1,\nx,y".data tCsvSample (by rfl),
   c5_conversion_roundtrip.2 [[.xstr "h1", .xstr "h2"], [.xnum 2, .xempty]]
     tXlsxSample (by rfl)⟩

/-! ## Visualization (growth.py:122-140) -/

/-- `df.select_dtypes(include='number')` (growth.py:125): project to the
numeric-dtype columns, in column order. -/
def selectNumericCols (t : Table) : Table :=
  { headers := ((List.range t.headers.length).filter
        (fun j => isNumericCol (colCells t j))).map (fun j => t.headers.getD j ""),
    rows := t.rows.map (fun r => ((List.range t.headers.length).filter
        (fun j => isNumericCol (colCells t j))).map (fun j => r.getD j .missing)) }

/-- Column label normalization (growth.py:128):
`columns.astype(str).str.strip()`. -/
def stripHeaders (t : Table) : Table :=
  { headers := t.headers.map String.trim, rows := t.rows }

/-- `pd.to_numeric(errors='coerce')` on one cell (growth.py:131): numbers
stay numbers, a textual numeric literal converts, any other value becomes
missing. -/
def coerceCell : Cell → Cell
  | .num q => .num q
  | .missing => .missing
  | .text s =>
      match parseNumber s.data with
      | some q => .num q
      | none => .missing

/-- `numeric_df.apply(pd.to_numeric, errors='coerce')` (growth.py:131). -/
def coerceNumeric (t : Table) : Table :=
  { headers := t.headers, rows := t.rows.map (List.map coerceCell) }

/-- `numeric_df.dropna(how='all', inplace=True)` (growth.py:134): drop the
rows whose cells are all missing. -/
def dropAllMissingRows (t : Table) : Table :=
  { headers := t.headers,
    rows := t.rows.filter (fun r => !(r.all (fun c => c = Cell.missing))) }

/-- pandas `df.empty`: some axis has length zero. -/
def Table.isEmpty (t : Table) : Bool :=
  t.rows.length = 0 || t.headers.length = 0

/-- The numeric subset the visualization block derives (growth.py:125-134):
numeric columns, labels stripped, values coerced, all-missing rows
dropped. -/
def numericView (t : Table) : Table :=
  dropAllMissingRows (coerceNumeric (stripHeaders (selectNumericCols t)))

/-- What the visualization section renders. -/
inductive VisOutcome where
  | chart (data : Table)
  | warn (msg : String)
  deriving DecidableEq, Repr

/-- growth.py:136-140: `st.bar_chart(numeric_df.iloc[:, :2])` when the
numeric view is nonempty, else `st.warning(...)`. -/
def visualize (t : Table) : VisOutcome :=
  if (numericView t).isEmpty then
    .warn "No valid numeric data available for bar chart."
  else
    .chart { headers := (numericView t).headers.take 2,
             rows := (numericView t).rows.map (List.take 2) }

lemma table_isEmpty_iff (t : Table) :
    t.isEmpty = true ↔ (t.headers = [] ∨ t.rows = []) := by
  rw [Table.isEmpty]
  simp only [Bool.or_eq_true, decide_eq_true_eq, List.length_eq_zero]
  tauto

/-- C8: in the visualization step the warning is shown (and no chart
rendered) precisely when the derived numeric subset — numeric columns,
coerced, all-missing rows dropped — is empty (no columns or no rows);
otherwise a bar chart is rendered whose data is the numeric subset cut to
at most its first two columns in column order. -/
theorem c8_visualization (t : Table) :
    ((∃ m, visualize t = .warn m) ↔ (numericView t).isEmpty = true) ∧
    ((numericView t).isEmpty = false →
      visualize t = .chart { headers := (numericView t).headers.take 2,
                             rows := (numericView t).rows.map (List.take 2) }) ∧
    (∀ d, visualize t = .chart d →
      d.headers = (numericView t).headers.take 2 ∧ d.headers.length ≤ 2) ∧
    ((numericView t).isEmpty = true ↔
      ((numericView t).headers = [] ∨ (numericView t).rows = [])) := by
  refine ⟨?_, ?_, ?_, table_isEmpty_iff _⟩
  · by_cases he : (numericView t).isEmpty = true
    · exact ⟨fun _ => he, fun _ => ⟨_, by rw [visualize, if_pos he]⟩⟩
    · constructor
      · rintro ⟨m, hm⟩
        rw [visualize, if_neg he] at hm
        cases hm
      · intro h
        exact absurd h he
  · intro he
    rw [visualize, if_neg (by rw [he]; exact Bool.false_ne_true)]
  · intro d hd
    by_cases he : (numericView t).isEmpty = true
    · rw [visualize, if_pos he] at hd
      cases hd
    · rw [visualize, if_neg he] at hd
      injection hd with hd
      subst hd
      refine ⟨rfl, ?_⟩
      show ((numericView t).headers.take 2).length ≤ 2
      rw [List.length_take]
      exact Nat.min_le_left 2 _

/-- One-column text-only table: no numeric data to visualize. -/
def tTextOnly : Table := { headers := ["n"], rows := [[.text "x"]] }

/-- Witness for C8: a text-only table warns; `tSample` yields the chart of
its numeric view cut to two columns. -/
theorem c8_visualization_witness :
    (∃ m, visualize tTextOnly = VisOutcome.warn m) ∧
    visualize tSample = .chart { headers := (numericView tSample).headers.take 2,
                                 rows := (numericView tSample).rows.map (List.take 2) } :=
  ⟨(c8_visualization tTextOnly).1.mpr (by decide),
   (c8_visualization tSample).2.1 (by decide)⟩

/-! ## Per-file processing and the run's messages (growth.py:74-166) -/

/-- The payload of an upload: text bytes, or a worksheet grid for an Excel
workbook. -/
inductive FileContent where
  | csvBytes (text : List Char)
  | xlsxBytes (grid : List (List XCell))

/-- An uploaded file: its name and raw content. -/
structure UploadedFile where
  name : List Char
  content : FileContent

/-- What one file's processing produces. -/
inductive FileOutcome where
  | parsed (t : Table)
  | unsupported (ext : List Char)
  | failed
  deriving Repr

/-- The dispatch on extension (growth.py:80-90): the extension is taken
from the name and lowercased, `.csv` goes to `pd.read_csv`, `.xlsx` to
`pd.read_excel`, anything else raises the per-file error and `continue`s.
`failed` stands for a reader error escaping (unhandled in the source,
spec §7). -/
def processFile (f : UploadedFile) : FileOutcome :=
  if fileExt f.name = ".csv".data then
    match f.content with
    | .csvBytes text =>
        match parseCSV text with
        | some t => .parsed t
        | none => .failed
    | .xlsxBytes _ => .failed
  else if fileExt f.name = ".xlsx".data then
    match f.content with
    | .xlsxBytes g =>
        match parseXlsx g with
        | some t => .parsed t
        | none => .failed
    | .csvBytes _ => .failed
  else .unsupported (fileExt f.name)

/-- The batch loop (growth.py:78): files are processed one by one and each
outcome is a function of its own file alone. -/
def processFiles (files : List UploadedFile) : List FileOutcome :=
  files.map processFile

/-- C7: a file whose lowercased extension is neither `.csv` nor `.xlsx`
yields the unsupported-type error outcome and no Table, and the batch is
processed file by file — splitting the batch around any file shows every
other file's outcome is computed independently, so the rest of the batch
is unaffected. -/
theorem c7_unsupported_extension (files : List UploadedFile) (f : UploadedFile)
    (hf : f ∈ files)
    (hcsv : fileExt f.name ≠ ".csv".data) (hxlsx : fileExt f.name ≠ ".xlsx".data) :
    processFile f = .unsupported (fileExt f.name) ∧
    (∀ t, processFile f ≠ .parsed t) ∧
    processFile f ∈ processFiles files ∧
    (∀ pre post, processFiles (pre ++ f :: post)
        = processFiles pre ++ processFile f :: processFiles post) := by
  have h1 : processFile f = .unsupported (fileExt f.name) := by
    rw [processFile, if_neg hcsv, if_neg hxlsx]
  refine ⟨h1, ?_, ?_, ?_⟩
  · intro t h
    rw [h1] at h
    cases h
  · exact List.mem_map_of_mem processFile hf
  · intro pre post
    rw [processFiles, processFiles, processFiles, List.map_append, List.map_cons]

/-- A `.txt` upload. -/
def fTxt : UploadedFile := { name := "notes.txt".data, content := .csvBytes "a\nx".data }

/-- A well-formed `.csv` upload. -/
def fCsv : UploadedFile := { name := "data.csv".data, content := .csvBytes "a\n1".data }

/-- Witness for C7: the `.txt` file in a two-file batch errors with its
extension, while the batch maps over both files unchanged. -/
theorem c7_unsupported_extension_witness :
    processFile fTxt = .unsupported ".txt".data ∧
    processFiles [fTxt, fCsv] = [processFile fTxt, processFile fCsv] := by
  have h := c7_unsupported_extension [fTxt, fCsv] fTxt
    (List.mem_cons_self _ _) (by decide) (by decide)
  constructor
  · rw [h.1]
    rfl
  · simpa using h.2.2.2 [] [fCsv]

/-- The visible banners one file contributes (growth.py:89, 93): the
unsupported-type error, or the file-info line opening the per-file
sections. -/
inductive Msg where
  | errorOut (s : String)
  | infoOut (s : String)
  | successOut (s : String)
  deriving DecidableEq, Repr

/-- Messages of one loop iteration (growth.py:80-93, abridged to the
banners relevant here). -/
def fileMsgs (f : UploadedFile) : List Msg :=
  match processFile f with
  | .unsupported ext => [.errorOut ("Unsupported file type: " ++ String.mk ext)]
  | .parsed _ => [.infoOut ("**📄 File Name:** " ++ String.mk f.name)]
  | .failed => []

/-- One whole run of the script (growth.py:74-166): the per-file loop sits
inside `if uploaded_files:`, but `st.success(...)` at line 166 is at top
level — outside the loop and outside the guard — so it is emitted
unconditionally at the end of every run. -/
def appRun (files : List UploadedFile) : List Msg :=
  (files.map fileMsgs).flatten ++ [.successOut "🎉 All files processed successfully!"]

/-- C10: every run ends with the success banner — it is the run's last
message for any batch, it is emitted even for an empty batch, and it is
present no matter which files were rejected as unsupported. -/
theorem c10_unconditional_success (files : List UploadedFile) :
    (appRun files).getLast?
        = some (.successOut "🎉 All files processed successfully!") ∧
    Msg.successOut "🎉 All files processed successfully!" ∈ appRun files ∧
    appRun [] = [.successOut "🎉 All files processed successfully!"] := by
  refine ⟨?_, ?_, rfl⟩
  · rw [appRun]
    exact List.getLast?_concat _
  · rw [appRun]
    exact List.mem_append_right _ (List.mem_singleton_self _)
